import Mathlib

/-!
Verification development for the cpcd evaluation pipeline.

This file gives a shallow embedding of the two core modules of the
repository — `metrics.py` (retrieval-metric primitives and
`compute_metrics`) and `eval.py` (per-turn seed filtering,
running-average aggregation, `score_dataset`) — and proves the stated
properties about them.

Modelling conventions:
* item identifiers (cluster ids) are an arbitrary type `α` with
  decidable equality; Python `set` values are represented by lists,
  used only through membership;
* Python `float` arithmetic is modelled by exact rationals `ℚ`;
* a Python `dict` (insertion-ordered) is an association list
  `List (String × β)`; assignment `d[k] = v` is `dictSet` (replace in
  place, else append), `defaultdict(list)` appending is `dictAppend`;
* fallible code (ZeroDivisionError, the `ValueError`s raised by
  `compute_metrics`, the `max([])` error) is modelled by
  `Except MetricError`; division `a / b` that can raise
  ZeroDivisionError is `ratDiv`.
-/

namespace Cpcd

variable {α : Type} [DecidableEq α]

/-- Error conditions the Python code can raise. The first four are the
explicit `ValueError`s of `compute_metrics`; `emptyKValues` is the
`ValueError` raised by `max([])`; `divByZero` is `ZeroDivisionError`. -/
inductive MetricError where
  | dupPreds
  | dupGold
  | unknownMetric
  | emptyKValues
  | kTooLarge
  | divByZero
deriving DecidableEq, Repr

/-- Python true division `a / b`, raising ZeroDivisionError on `b = 0`. -/
def ratDiv (a b : ℚ) : Option ℚ :=
  if b = 0 then none else some (a / b)

/-- Size of `set(gold).intersection(predsk)`: the number of distinct
elements of `gold` that occur in `predsk`. -/
def numHit (gold predsk : List α) : Nat :=
  (gold.dedup.filter (fun g => decide (g ∈ predsk))).length

/-- Embedding of `metrics.get_hit`: 1 if any of the top-k predictions
are in the gold set, else 0. -/
def get_hit (gold preds : List α) (k : Nat) : Nat :=
  if 0 < numHit gold (preds.take k) then 1 else 0

/-- Loop of `metrics.get_reciprocal_rank`: `enumerate(preds, start=i)`,
returning `1 / rank` of the first relevant prediction, else 0. -/
def rrGo (gold : List α) : List α → Nat → ℚ
  | [], _ => 0
  | p :: rest, i => if p ∈ gold then (1 : ℚ) / (i : ℚ) else rrGo gold rest (i + 1)

/-- Embedding of `metrics.get_reciprocal_rank`. -/
def get_reciprocal_rank (gold preds : List α) (k : Nat) : ℚ :=
  rrGo gold (preds.take k) 1

/-- Embedding of `metrics.get_precision`: `num_hit / len(preds[:k])`. -/
def get_precision (gold preds : List α) (k : Nat) : Option ℚ :=
  ratDiv ((numHit gold (preds.take k) : ℚ)) (((preds.take k).length : ℚ))

/-- Embedding of `metrics.get_recall`: `num_hit / len(gold)`. -/
def get_recall (gold preds : List α) (k : Nat) : Option ℚ :=
  ratDiv ((numHit gold (preds.take k) : ℚ)) ((gold.length : ℚ))

/-- Loop of `metrics.get_average_precision`: carries the 1-based rank
`i`, the running hit count `nh` and the running total `tp`. -/
def apLoop (gold : List α) : List α → Nat → Nat → ℚ → ℚ
  | [], _, _, tp => tp
  | p :: rest, i, nh, tp =>
    if p ∈ gold then apLoop gold rest (i + 1) (nh + 1) (tp + ((nh + 1 : Nat) : ℚ) / (i : ℚ))
    else apLoop gold rest (i + 1) nh tp

/-- Embedding of `metrics.get_average_precision`: the loop total divided
by `min(len(gold), len(preds[:k]))`. -/
def get_average_precision (gold preds : List α) (k : Nat) : Option ℚ :=
  ratDiv (apLoop gold (preds.take k) 1 0 0) ((min gold.length (preds.take k).length : Nat) : ℚ)

/-- Embedding of `metrics._has_duplicates`:
`len(values) > len(set(values))`. -/
def _has_duplicates (values : List α) : Bool :=
  decide (values.dedup.length < values.length)

/-- Embedding of `metrics.STANDARD_METRICS`: the sorted keys of
`_STANDARD_METRIC_MAP`. -/
def STANDARD_METRICS : List String :=
  ["hit", "map", "mrr", "precision", "recall"]

/-- Lookup in `metrics._STANDARD_METRIC_MAP`, with every metric function
presented uniformly as `gold → preds → k → Option ℚ` (the `Option`
models ZeroDivisionError; `get_hit` and `get_reciprocal_rank` are
total). -/
def metricFn (m : String) : Option (List α → List α → Nat → Option ℚ) :=
  if m = "hit" then some (fun g p k => some ((get_hit g p k : Nat) : ℚ))
  else if m = "map" then some (fun g p k => get_average_precision g p k)
  else if m = "recall" then some (fun g p k => get_recall g p k)
  else if m = "precision" then some (fun g p k => get_precision g p k)
  else if m = "mrr" then some (fun g p k => some (get_reciprocal_rank g p k))
  else none

/-- Python `max` over a list of naturals (`max([])` raises, handled at
the call site in `compute_metrics`). -/
def listMax : List Nat → Nat
  | [] => 0
  | k :: rest => rest.foldl max k

/-- Python dict assignment `d[k] = v` on an association list: replace
the value in place if the key is present, else append a new entry. -/
def dictSet {β : Type} : List (String × β) → String → β → List (String × β)
  | [], k, v => [(k, v)]
  | (k0, v0) :: rest, k, v =>
    if k0 = k then (k0, v) :: rest else (k0, v0) :: dictSet rest k v

/-- Python dict lookup `d.get(k)` on an association list. -/
def dictGet {β : Type} : List (String × β) → String → Option β
  | [], _ => none
  | (k0, v0) :: rest, k => if k0 = k then some v0 else dictGet rest k

/-- Keys of an association list, in order. -/
def dictKeys {β : Type} (d : List (String × β)) : List String :=
  d.map Prod.fst

/-- Metric-result key `f"{metric}@{k}"` for a `(metric, k)` pair. -/
def keyOf (p : String × Nat) : String :=
  p.1 ++ "@" ++ toString p.2

/-- Inner loops of `compute_metrics`: iterate over the `(metric, k)`
pairs in order, writing `metric_vals[f"{metric}@{k}"]`. An absent
metric function raises KeyError-like failure (unreachable after
validation); a metric returning `none` raises ZeroDivisionError. -/
def metricValsLoop (gold preds : List α) :
    List (String × Nat) → List (String × ℚ) → Except MetricError (List (String × ℚ))
  | [], acc => .ok acc
  | (m, k) :: rest, acc =>
    match metricFn (α := α) m with
    | none => .error .unknownMetric
    | some f =>
      match f gold preds k with
      | none => .error .divByZero
      | some v => metricValsLoop gold preds rest (dictSet acc (keyOf (m, k)) v)

/-- Embedding of `metrics.compute_metrics`: the four validations in
source order, then the metric/k double loop. -/
def compute_metrics (preds gold : List α) (k_values : List Nat) (metrics : List String) :
    Except MetricError (List (String × ℚ)) :=
  if _has_duplicates preds then .error .dupPreds
  else if _has_duplicates gold then .error .dupGold
  else if metrics.any (fun m => (metricFn (α := α) m).isNone) then .error .unknownMetric
  else if k_values = [] then .error .emptyKValues
  else if preds.length < listMax k_values then .error .kTooLarge
  else metricValsLoop gold preds
    (metrics.flatMap (fun m => k_values.map (fun k => (m, k)))) []

/-- Classification of `MetricError`s: which ones are the input-validation
`ValueError`s of `compute_metrics` (as opposed to ZeroDivisionError). -/
def isValidationError : MetricError → Bool
  | .dupPreds => true
  | .dupGold => true
  | .unknownMetric => true
  | .emptyKValues => true
  | .kTooLarge => true
  | .divByZero => false

/-- Embedding of `eval._filter_tracks`: the original tracks that do not
occur in `seed_tracks`, in order. -/
def _filter_tracks (tracks : List α) (seed_tracks : List α) : List α :=
  tracks.filter (fun t => decide (t ∉ seed_tracks))

/-- The per-turn loop of `eval.compute_metrics_per_turn`, reduced to the
sequence of `(filtered_preds, filtered_gold)` pairs actually scored:
the cumulative seen set absorbs each turn's seed batch, both lists are
filtered against it, and a turn with empty filtered gold is skipped. -/
def perTurnCalls (gold : List α) : List (List α × List α) → List α → List (List α × List α)
  | [], _ => []
  | (tp, ts) :: rest, seen =>
    let seen2 := seen ++ ts
    let fg := _filter_tracks gold seen2
    if fg = [] then perTurnCalls gold rest seen2
    else (_filter_tracks tp seen2, fg) :: perTurnCalls gold rest seen2

/-- Append `v` to `ret[k]` where `ret` is a `defaultdict(list)`. -/
def dictAppend {β : Type} : List (String × List β) → String → β → List (String × List β)
  | [], k, v => [(k, [v])]
  | (k0, vs) :: rest, k, v =>
    if k0 = k then (k0, vs ++ [v]) :: rest else (k0, vs) :: dictAppend rest k v

/-- Scoring half of `eval.compute_metrics_per_turn`: each scored turn
runs `compute_metrics` (with the default metric list) and appends every
resulting value to that metric's per-turn list. -/
def perTurnFold (k_values : List Nat) :
    List (List α × List α) → List (String × List ℚ) → Except MetricError (List (String × List ℚ))
  | [], ret => .ok ret
  | (fp, fg) :: rest, ret =>
    match compute_metrics fp fg k_values STANDARD_METRICS with
    | .error e => .error e
    | .ok tm => perTurnFold k_values rest (tm.foldl (fun r kv => dictAppend r kv.1 kv.2) ret)

/-- Embedding of `eval.compute_metrics_per_turn`: zip predictions with
seed batches, accumulate the seen set, filter, skip empty-gold turns,
score the rest. -/
def compute_metrics_per_turn (preds : List (List α)) (gold : List α)
    (seed_tracks : List (List α)) (k_values : List Nat) :
    Except MetricError (List (String × List ℚ)) :=
  perTurnFold k_values (perTurnCalls gold (preds.zip seed_tracks) []) []

/-- The cumulative seen set before scoring turn `t`: the union of the
seed batches of turns `0..t` (turn `t`'s own batch is added before the
turn is scored, matching `prev_seed_tracks.update(turn_seed_tracks)`). -/
def seenUpto (seeds : List (List α)) (t : Nat) : List α :=
  (seeds.take (t + 1)).flatten

/-- Embedding of `eval._AveragedValue` (fresh instances start at
`value = 0.0, count = 0.0`). -/
structure _AveragedValue where
  value : ℚ := 0
  count : ℚ := 0
deriving DecidableEq, Repr

/-- Embedding of `eval._AveragedValue.update`: increment the count, then
move the mean by `(value - old_mean) / new_count`. -/
def _AveragedValue.update (a : _AveragedValue) (v : ℚ) : _AveragedValue :=
  ⟨a.value + (v - a.value) / (a.count + 1), a.count + 1⟩

/-- Embedding of `eval._PerTurnMetricSummary` (field order as in
`__init__`). -/
structure _PerTurnMetricSummary where
  micro_average : _AveragedValue
  macro_average : _AveragedValue
  per_turn_average : List _AveragedValue
deriving DecidableEq, Repr

/-- Freshly constructed `_PerTurnMetricSummary(max_turns)`. -/
def freshSummary (max_turns : Nat) : _PerTurnMetricSummary :=
  ⟨⟨0, 0⟩, ⟨0, 0⟩, List.replicate max_turns ⟨0, 0⟩⟩

/-- Embedding of `eval._PerTurnMetricSummary.update`: the macro average
takes the mean of the per-turn values (`sum(values)/len(values)` raises
on an empty list, hence the `Option`); every value updates the micro
average; value at index `i` updates positional bucket `i` when
`i < len(per_turn_average)`. -/
def _PerTurnMetricSummary.update (s : _PerTurnMetricSummary) (values : List ℚ) :
    Option _PerTurnMetricSummary :=
  if values.length = 0 then none
  else some
    { micro_average := values.foldl _AveragedValue.update s.micro_average,
      macro_average := s.macro_average.update (values.sum / (values.length : ℚ)),
      per_turn_average :=
        List.zipWith _AveragedValue.update s.per_turn_average values
          ++ s.per_turn_average.drop values.length }

/-- Inner aggregation loop of `eval.score_dataset`: for each metric of
one dialog's result, fetch-or-create the summary (`defaultdict`
semantics) and update it with the dialog's per-turn values. -/
def aggUpdateMetrics (max_turns : Nat) :
    List (String × List ℚ) → List (String × _PerTurnMetricSummary) →
    Except MetricError (List (String × _PerTurnMetricSummary))
  | [], agg => .ok agg
  | (name, vals) :: rest, agg =>
    let s := (dictGet agg name).getD (freshSummary max_turns)
    match s.update vals with
    | none => .error .divByZero
    | some s2 => aggUpdateMetrics max_turns rest (dictSet agg name s2)

/-- Dialog loop of `eval.score_dataset`: score each dialog with
`compute_metrics_per_turn` and fold its per-metric values into the
aggregate summaries. A dialog is the triple
`(per-turn preds, gold, per-turn seed batches)`. -/
def aggOf (k_values : List Nat) (max_turns : Nat) :
    List (List (List α) × List α × List (List α)) →
    List (String × _PerTurnMetricSummary) →
    Except MetricError (List (String × _PerTurnMetricSummary))
  | [], agg => .ok agg
  | d :: rest, agg =>
    match compute_metrics_per_turn d.1 d.2.1 d.2.2 k_values with
    | .error e => .error e
    | .ok dm =>
      match aggUpdateMetrics max_turns dm agg with
      | .error e => .error e
      | .ok agg2 => aggOf k_values max_turns rest agg2

/-- The reported row for a metric: `[macro, micro, turn_0, ...,
turn_{max_turns-1}]` values. -/
def valuesRow (s : _PerTurnMetricSummary) : List ℚ :=
  s.macro_average.value :: s.micro_average.value :: s.per_turn_average.map (fun a => a.value)

/-- The observation-count row for a metric, same shape as `valuesRow`. -/
def countsRow (s : _PerTurnMetricSummary) : List ℚ :=
  s.macro_average.count :: s.micro_average.count :: s.per_turn_average.map (fun a => a.count)

/-- Reformatting phase of `eval.score_dataset`: one row per metric, and
on every iteration the shared `"counts"` key is rewritten with that
metric's counts. -/
def reportOf (agg : List (String × _PerTurnMetricSummary)) : List (String × List ℚ) :=
  agg.foldl (fun rep p => dictSet (dictSet rep p.1 (valuesRow p.2)) "counts" (countsRow p.2)) []

/-- Embedding of `eval.score_dataset`. -/
def score_dataset (dialogs : List (List (List α) × List α × List (List α)))
    (k_values : List Nat) (max_turns : Nat) :
    Except MetricError (List (String × List ℚ)) :=
  match aggOf k_values max_turns dialogs [] with
  | .error e => .error e
  | .ok agg => .ok (reportOf agg)

/-- Modelled from the spec: the average-precision numerator as §4.1
words it — the sum of `(hits-so-far / rank)` over the relevant
predictions, sequential hit counting made explicit. -/
def apSpecGo (gold : List α) : List α → Nat → Nat → ℚ
  | [], _, _ => 0
  | p :: rest, rank, hitsSoFar =>
    if p ∈ gold then ((hitsSoFar + 1 : Nat) : ℚ) / (rank : ℚ) + apSpecGo gold rest (rank + 1) (hitsSoFar + 1)
    else apSpecGo gold rest (rank + 1) hitsSoFar

/-- Modelled from the spec: sum of `(hits-so-far / rank)` over relevant
hits within the top-k predictions. -/
def apSpecSum (gold preds : List α) (k : Nat) : ℚ :=
  apSpecGo gold (preds.take k) 1 0

/-- The key list produced by folding dict insertions of `keyOf p` for
each pair `p` over an initial key list: a fresh key is appended, an
existing key left in place. This is how the keys of
`compute_metrics`'s result dict evolve. -/
def keysAfter : List String → List (String × Nat) → List String
  | ks, [] => ks
  | ks, p :: rest => keysAfter (if keyOf p ∈ ks then ks else ks ++ [keyOf p]) rest

/-- The canonical key list of a `compute_metrics` call made with the
default metric list: every `"<metric>@<k>"` for the five standard
metrics crossed with `k_values`, in loop order, deduplicated. -/
def canonKeys (k_values : List Nat) : List String :=
  keysAfter [] (STANDARD_METRICS.flatMap (fun m => k_values.map (fun k => (m, k))))

/-- Invariant maintained by the aggregation dict of `score_dataset`:
keys are distinct metric keys (each containing an at-sign), and every
stored summary has `max_turns` positional buckets. -/
def aggInv (max_turns : Nat) (agg : List (String × _PerTurnMetricSummary)) : Prop :=
  (dictKeys agg).Nodup
  ∧ (∀ key ∈ dictKeys agg, '@' ∈ key.data)
  ∧ (∀ p ∈ agg, p.2.per_turn_average.length = max_turns)

/-! ### Association-list lemmas -/

theorem dictKeys_nil {β : Type} : dictKeys ([] : List (String × β)) = [] := rfl

theorem dictKeys_cons {β : Type} (p : String × β) (d : List (String × β)) :
    dictKeys (p :: d) = p.1 :: dictKeys d := rfl

theorem dictKeys_append {β : Type} (d d2 : List (String × β)) :
    dictKeys (d ++ d2) = dictKeys d ++ dictKeys d2 := by
  simp [dictKeys]

theorem dictGet_dictSet_self {β : Type} (d : List (String × β)) (k : String) (v : β) :
    dictGet (dictSet d k v) k = some v := by
  induction d with
  | nil => simp [dictSet, dictGet]
  | cons p rest ih =>
    obtain ⟨k0, v0⟩ := p
    by_cases h : k0 = k
    · simp [dictSet, dictGet, h]
    · simp [dictSet, dictGet, h, ih]

theorem dictGet_dictSet_ne {β : Type} (d : List (String × β)) (k k2 : String) (v : β)
    (h : k2 ≠ k) : dictGet (dictSet d k v) k2 = dictGet d k2 := by
  have hk : k ≠ k2 := h.symm
  induction d with
  | nil => simp [dictSet, dictGet, hk]
  | cons p rest ih =>
    obtain ⟨k0, v0⟩ := p
    by_cases h0 : k0 = k
    · subst h0
      simp [dictSet, dictGet, hk]
    · simp [dictSet, dictGet, h0, ih]

theorem dictKeys_dictSet {β : Type} (d : List (String × β)) (k : String) (v : β) :
    dictKeys (dictSet d k v) =
      if k ∈ dictKeys d then dictKeys d else dictKeys d ++ [k] := by
  induction d with
  | nil => simp [dictSet, dictKeys_nil, dictKeys_cons]
  | cons p rest ih =>
    obtain ⟨k0, v0⟩ := p
    by_cases h : k0 = k
    · subst h
      simp [dictSet, dictKeys_cons]
    · have hk : ¬ k = k0 := fun hh => h hh.symm
      have hstep : dictSet ((k0, v0) :: rest) k v = (k0, v0) :: dictSet rest k v := by
        simp [dictSet, h]
      rw [hstep, dictKeys_cons, dictKeys_cons, ih]
      by_cases hm : k ∈ dictKeys rest
      · simp [hm, hk]
      · simp [hm, hk]

theorem nodup_dictKeys_dictSet {β : Type} (d : List (String × β)) (k : String) (v : β)
    (h : (dictKeys d).Nodup) : (dictKeys (dictSet d k v)).Nodup := by
  rw [dictKeys_dictSet]
  by_cases hm : k ∈ dictKeys d
  · simpa [hm] using h
  · simp [hm, List.nodup_append, h]

theorem mem_dictSet {β : Type} (d : List (String × β)) (k : String) (v : β) (p : String × β)
    (h : p ∈ dictSet d k v) : p ∈ d ∨ p = (k, v) := by
  induction d with
  | nil => simpa [dictSet] using h
  | cons q rest ih =>
    obtain ⟨k0, v0⟩ := q
    by_cases h0 : k0 = k
    · have hstep : dictSet ((k0, v0) :: rest) k v = (k0, v) :: rest := by
        simp [dictSet, h0]
      rw [hstep, List.mem_cons] at h
      rcases h with h | h
      · right; rw [h, h0]
      · left; exact List.mem_cons_of_mem _ h
    · have hstep : dictSet ((k0, v0) :: rest) k v = (k0, v0) :: dictSet rest k v := by
        simp [dictSet, h0]
      rw [hstep, List.mem_cons] at h
      rcases h with h | h
      · left; simp [h]
      · rcases ih h with h2 | h2
        · left; exact List.mem_cons_of_mem _ h2
        · right; exact h2

theorem dictGet_mem {β : Type} (d : List (String × β)) (k : String) (v : β)
    (h : dictGet d k = some v) : (k, v) ∈ d := by
  induction d with
  | nil => simp [dictGet] at h
  | cons p rest ih =>
    obtain ⟨k0, v0⟩ := p
    by_cases h0 : k0 = k
    · have hv : v0 = v := by
        have h2 := h
        simp [dictGet, h0] at h2
        exact h2
      rw [← h0, ← hv]
      exact List.mem_cons_self _ _
    · have hstep : dictGet ((k0, v0) :: rest) k = dictGet rest k := by
        simp [dictGet, h0]
      rw [hstep] at h
      exact List.mem_cons_of_mem _ (ih h)

theorem dictGet_isSome_of_mem_keys {β : Type} (d : List (String × β)) (k : String)
    (h : k ∈ dictKeys d) : ∃ v, dictGet d k = some v := by
  induction d with
  | nil => simp [dictKeys_nil] at h
  | cons p rest ih =>
    obtain ⟨k0, v0⟩ := p
    by_cases h0 : k0 = k
    · exact ⟨v0, by simp [dictGet, h0]⟩
    · rw [dictKeys_cons, List.mem_cons] at h
      rcases h with h | h
      · exact absurd h.symm h0
      · obtain ⟨v, hv⟩ := ih h
        exact ⟨v, by simp [dictGet, h0, hv]⟩

theorem dictAppend_of_not_mem {β : Type} (d : List (String × List β)) (k : String) (v : β)
    (h : k ∉ dictKeys d) : dictAppend d k v = d ++ [(k, [v])] := by
  induction d with
  | nil => simp [dictAppend]
  | cons p rest ih =>
    obtain ⟨k0, vs⟩ := p
    rw [dictKeys_cons, List.mem_cons] at h
    push_neg at h
    have h0 : ¬ k0 = k := fun hh => h.1 hh.symm
    simp [dictAppend, h0, ih h.2]

/-! ### Metric primitive lemmas -/

theorem ratDiv_isSome (a b : ℚ) (h : b ≠ 0) : (ratDiv a b).isSome := by
  simp [ratDiv, h]

theorem ratDiv_eq_none_iff (a b : ℚ) : ratDiv a b = none ↔ b = 0 := by
  by_cases h : b = 0 <;> simp [ratDiv, h]

theorem numHit_pos_iff (gold predsk : List α) :
    0 < numHit gold predsk ↔ ∃ x, x ∈ predsk ∧ x ∈ gold := by
  rw [numHit, List.length_pos_iff_exists_mem]
  constructor
  · rintro ⟨g, hg⟩
    simp [List.mem_filter, List.mem_dedup] at hg
    exact ⟨g, hg.2, hg.1⟩
  · rintro ⟨x, hx1, hx2⟩
    exact ⟨x, by simp [List.mem_filter, List.mem_dedup, hx1, hx2]⟩

theorem rrGo_pos_iff (gold : List α) :
    ∀ (l : List α) (i : Nat), 1 ≤ i →
      (0 < rrGo gold l i ↔ ∃ x, x ∈ l ∧ x ∈ gold) := by
  intro l
  induction l with
  | nil => simp [rrGo]
  | cons p rest ih =>
    intro i hi
    by_cases hp : p ∈ gold
    · have hipos : (0 : ℚ) < (i : ℚ) := by exact_mod_cast hi
      simp only [rrGo, if_pos hp]
      constructor
      · intro _; exact ⟨p, by simp, hp⟩
      · intro _; positivity
    · simp only [rrGo, if_neg hp]
      rw [ih (i + 1) (by omega)]
      constructor
      · rintro ⟨x, hx1, hx2⟩
        exact ⟨x, by simp [hx1], hx2⟩
      · rintro ⟨x, hx1, hx2⟩
        rcases List.mem_cons.mp hx1 with h | h
        · exact absurd (h ▸ hx2) hp
        · exact ⟨x, h, hx2⟩

theorem apLoop_eq_apSpecGo (gold : List α) :
    ∀ (l : List α) (i nh : Nat) (tp : ℚ),
      apLoop gold l i nh tp = tp + apSpecGo gold l i nh := by
  intro l
  induction l with
  | nil => simp [apLoop, apSpecGo]
  | cons p rest ih =>
    intro i nh tp
    by_cases hp : p ∈ gold
    · simp only [apLoop, apSpecGo, if_pos hp, ih]
      ring
    · simp only [apLoop, apSpecGo, if_neg hp, ih]

/-! ### Claim C5 — running-average accumulator -/

/-- C5: `_AveragedValue.update` implements the incremental rule
`new_mean = old_mean + (value - old_mean) / new_count` with
`new_count = old_count + 1`, and feeding `[2, 4, 6]` into a fresh
accumulator yields mean 4 and count 3. -/
theorem c5_running_mean :
    (∀ (a : _AveragedValue) (v : ℚ),
      (a.update v).count = a.count + 1 ∧
      (a.update v).value = a.value + (v - a.value) / (a.count + 1))
    ∧ ([2, 4, 6] : List ℚ).foldl _AveragedValue.update ⟨0, 0⟩ = ⟨4, 3⟩ := by
  refine ⟨fun a v => ⟨rfl, rfl⟩, ?_⟩
  simp only [List.foldl_cons, List.foldl_nil, _AveragedValue.update]
  norm_num

/-! ### Claim C9 — hit@k vs reciprocal-rank@k -/

/-- C9: `get_hit` returns 1 exactly when `get_reciprocal_rank` is
strictly positive, for every gold list, prediction list and cutoff. -/
theorem c9_hit_iff_mrr_pos (gold preds : List α) (k : Nat) :
    get_hit gold preds k = 1 ↔ 0 < get_reciprocal_rank gold preds k := by
  rw [get_reciprocal_rank, rrGo_pos_iff gold (preds.take k) 1 le_rfl,
    ← numHit_pos_iff gold (preds.take k), get_hit]
  by_cases h : 0 < numHit gold (preds.take k)
  · simp [h]
  · simp [h]

/-! ### Claim C6 — average precision -/

/-- C6 (amended): for non-empty gold and a cutoff `1 ≤ k ≤ len(preds)`
(the regime `compute_metrics` validates), `get_average_precision`
equals the spec formula: the sum of `(hits-so-far / rank)` over the
relevant predictions within the top k, divided by `min(|gold|, k)`. -/
theorem c6_map_formula (gold preds : List α) (k : Nat)
    (hg : gold ≠ []) (hk1 : 1 ≤ k) (hk2 : k ≤ preds.length) :
    get_average_precision gold preds k =
      some (apSpecSum gold preds k / ((min gold.length k : Nat) : ℚ)) := by
  have hlen : (preds.take k).length = k := by
    simp [List.length_take]
    omega
  have hgl : 0 < gold.length := List.length_pos.mpr hg
  have hdenom : ((min gold.length (preds.take k).length : Nat) : ℚ) ≠ 0 := by
    rw [hlen]
    exact_mod_cast Nat.pos_iff_ne_zero.mp (by omega)
  rw [get_average_precision, ratDiv, if_neg (by simpa using hdenom)]
  rw [apLoop_eq_apSpecGo, apSpecSum, hlen, zero_add]

/-- C6 counterexample: with `gold = [0,1]`, `preds = [0]`, `k = 5` the
code divides by `min(len(gold), len(preds[:k])) = 1` and returns 1,
not the spec's `sum / min(|gold|, k) = 1/2`. -/
theorem c6_counterexample :
    get_average_precision [0, 1] [0] 5 ≠
      some (apSpecSum [0, 1] [0] 5 / ((min (List.length [0, 1]) 5 : Nat) : ℚ)) := by
  simp only [get_average_precision, apSpecSum, apSpecGo, apLoop, ratDiv, List.take,
    List.length_cons, List.length_nil]
  norm_num [apSpecGo, apLoop]

/-- Witness for `c6_map_formula` at a concrete input. -/
theorem c6_map_formula_witness :
    get_average_precision [0, 1] [0, 2] 2 =
      some (apSpecSum [0, 1] [0, 2] 2 / ((min (List.length [0, 1]) 2 : Nat) : ℚ)) :=
  c6_map_formula [0, 1] [0, 2] 2 (by decide) (by decide) (by decide)

/-! ### Per-turn filtering lemmas -/

theorem perTurnCalls_cons_skip (gold tp ts : List α) (rest : List (List α × List α))
    (seen : List α) (h : _filter_tracks gold (seen ++ ts) = []) :
    perTurnCalls gold ((tp, ts) :: rest) seen = perTurnCalls gold rest (seen ++ ts) := by
  simp [perTurnCalls, h]

theorem perTurnCalls_cons_keep (gold tp ts : List α) (rest : List (List α × List α))
    (seen : List α) (h : _filter_tracks gold (seen ++ ts) ≠ []) :
    perTurnCalls gold ((tp, ts) :: rest) seen =
      (_filter_tracks tp (seen ++ ts), _filter_tracks gold (seen ++ ts))
        :: perTurnCalls gold rest (seen ++ ts) := by
  simp [perTurnCalls, h]

theorem perTurnCalls_snd_ne_nil (gold : List α) :
    ∀ (l : List (List α × List α)) (seen : List α) (c : List α × List α),
      c ∈ perTurnCalls gold l seen → c.2 ≠ [] := by
  intro l
  induction l with
  | nil =>
    intro seen c hc
    simp [perTurnCalls] at hc
  | cons p rest ih =>
    intro seen c hc
    obtain ⟨tp, ts⟩ := p
    by_cases hfg : _filter_tracks gold (seen ++ ts) = []
    · rw [perTurnCalls_cons_skip gold tp ts rest seen hfg] at hc
      exact ih _ _ hc
    · rw [perTurnCalls_cons_keep gold tp ts rest seen hfg, List.mem_cons] at hc
      rcases hc with hc | hc
      · rw [hc]
        exact hfg
      · exact ih _ _ hc

omit [DecidableEq α] in
theorem seenUpto_mono_mem (seeds : List (List α)) (t : Nat) (x : α)
    (h : x ∈ seenUpto seeds t) : x ∈ seenUpto seeds (t + 1) := by
  rw [seenUpto, List.mem_flatten] at h ⊢
  obtain ⟨l, hl, hx⟩ := h
  have hpre : seeds.take (t + 1) <+: seeds.take (t + 2) := by
    have h2 := List.take_prefix (t + 1) (seeds.take (t + 2))
    rwa [List.take_take, min_eq_left (by omega)] at h2
  exact ⟨l, hpre.sublist.mem hl, hx⟩

theorem perTurnCalls_eq_filterMap (gold : List α) :
    ∀ (l : List (List α × List α)) (seen : List α),
      perTurnCalls gold l seen =
        (List.range l.length).filterMap (fun t =>
          match l[t]? with
          | none => none
          | some pr =>
            let s := seen ++ seenUpto (l.map Prod.snd) t
            let fg := _filter_tracks gold s
            if fg = [] then none
            else some (_filter_tracks pr.1 s, fg)) := by
  intro l
  induction l with
  | nil =>
    intro seen
    simp [perTurnCalls]
  | cons p rest ih =>
    intro seen
    obtain ⟨tp, ts⟩ := p
    have hfun :
        ((fun t =>
          match ((tp, ts) :: rest)[t]? with
          | none => none
          | some pr =>
            let s := seen ++ seenUpto (((tp, ts) :: rest).map Prod.snd) t
            let fg := _filter_tracks gold s
            if fg = [] then none
            else some (_filter_tracks pr.1 s, fg)) ∘ Nat.succ) =
        (fun t =>
          match rest[t]? with
          | none => none
          | some pr =>
            let s := (seen ++ ts) ++ seenUpto (rest.map Prod.snd) t
            let fg := _filter_tracks gold s
            if fg = [] then none
            else some (_filter_tracks pr.1 s, fg)) := by
      funext t
      cases h : rest[t]? with
      | none => simp [Function.comp, Nat.succ_eq_add_one, h]
      | some pr =>
        simp [Function.comp, Nat.succ_eq_add_one, h, seenUpto, List.append_assoc]
    rw [List.length_cons, List.range_succ_eq_map, List.filterMap_cons, List.filterMap_map, hfun]
    by_cases hfg : _filter_tracks gold (seen ++ ts) = []
    · rw [perTurnCalls_cons_skip gold tp ts rest seen hfg, ih (seen ++ ts)]
      simp [seenUpto, hfg]
    · rw [perTurnCalls_cons_keep gold tp ts rest seen hfg, ih (seen ++ ts)]
      simp [seenUpto, hfg]

/-! ### Claim C1 — cumulative seed filtering -/

/-- C1: the seen set before scoring turn `t` is the union of seed
batches `0..t` and is monotone in `t`; the scored calls are exactly,
for each turn index in order, the turn's predictions and the dialog
gold with all seen items removed (order preserved), the turn dropped
when its filtered gold is empty; and on the concrete dialog of the
claim (gold `{A,B,C} = [0,1,2]`, turn-0 preds `[0,1]` with empty seed
batch, turn-1 preds `[0,2]` with seed batch `[0]`), turn 1 is scored
on filtered preds `[2]` and filtered gold `[1,2]`. -/
theorem c1_seed_filtering :
    (∀ (seeds : List (List α)) (t : Nat) (x : α),
        x ∈ seenUpto seeds t → x ∈ seenUpto seeds (t + 1))
    ∧ (∀ (gold : List α) (l : List (List α × List α)),
        perTurnCalls gold l [] =
          (List.range l.length).filterMap (fun t =>
            match l[t]? with
            | none => none
            | some pr =>
              let s := seenUpto (l.map Prod.snd) t
              let fg := _filter_tracks gold s
              if fg = [] then none
              else some (_filter_tracks pr.1 s, fg)))
    ∧ perTurnCalls [0, 1, 2] [([0, 1], ([] : List ℕ)), ([0, 2], [0])] []
        = [([0, 1], [0, 1, 2]), ([2], [1, 2])] := by
  refine ⟨seenUpto_mono_mem, fun gold l => ?_, by decide⟩
  rw [perTurnCalls_eq_filterMap gold l []]
  simp

/-- Witness for the monotonicity part of `c1_seed_filtering` at a
concrete input. -/
theorem c1_seed_filtering_witness : (0 : ℕ) ∈ seenUpto [[0], [1]] 1 :=
  (c1_seed_filtering (α := ℕ)).1 [[0], [1]] 0 0 (by decide)

/-! ### Claim C2 — turns with empty filtered gold are skipped -/

/-- C2: a turn whose filtered gold is empty contributes no scored call
(only its seed batch is absorbed), so it appends no metric value in
`compute_metrics_per_turn` and leaves every accumulator of
`score_dataset` untouched: the dataset scores as if the turn did not
exist and its seed batch were merged into the next turn's batch. -/
theorem c2_skip_empty_gold (gold : List α) (tp ts tp2 s0 : List α)
    (prest srest : List (List α))
    (ds : List (List (List α) × List α × List (List α))) (ks : List Nat) (m : Nat)
    (h : _filter_tracks gold ts = []) :
    (∀ (rest : List (List α × List α)) (seen : List α),
        _filter_tracks gold (seen ++ ts) = [] →
        perTurnCalls gold ((tp, ts) :: rest) seen = perTurnCalls gold rest (seen ++ ts))
    ∧ compute_metrics_per_turn (tp :: tp2 :: prest) gold (ts :: s0 :: srest) ks
        = compute_metrics_per_turn (tp2 :: prest) gold ((ts ++ s0) :: srest) ks
    ∧ score_dataset ((tp :: tp2 :: prest, gold, ts :: s0 :: srest) :: ds) ks m
        = score_dataset ((tp2 :: prest, gold, (ts ++ s0) :: srest) :: ds) ks m := by
  have hcalls :
      perTurnCalls gold ((tp :: tp2 :: prest).zip (ts :: s0 :: srest)) []
        = perTurnCalls gold ((tp2 :: prest).zip ((ts ++ s0) :: srest)) [] := by
    rw [List.zip_cons_cons, List.zip_cons_cons, List.zip_cons_cons]
    rw [perTurnCalls_cons_skip gold tp ts _ [] (by simpa using h)]
    simp only [List.nil_append]
    by_cases hfg : _filter_tracks gold (ts ++ s0) = []
    · rw [perTurnCalls_cons_skip gold tp2 s0 _ ts (by simpa using hfg),
        perTurnCalls_cons_skip gold tp2 (ts ++ s0) _ [] (by simpa using hfg)]
      simp
    · rw [perTurnCalls_cons_keep gold tp2 s0 _ ts (by simpa using hfg),
        perTurnCalls_cons_keep gold tp2 (ts ++ s0) _ [] (by simpa using hfg)]
      simp
  have hper :
      compute_metrics_per_turn (tp :: tp2 :: prest) gold (ts :: s0 :: srest) ks
        = compute_metrics_per_turn (tp2 :: prest) gold ((ts ++ s0) :: srest) ks := by
    rw [compute_metrics_per_turn, compute_metrics_per_turn, hcalls]
  refine ⟨fun rest seen hs => perTurnCalls_cons_skip gold tp ts rest seen hs, hper, ?_⟩
  rw [score_dataset, score_dataset, aggOf, aggOf]
  simp only []
  rw [hper]

/-- Witness for `c2_skip_empty_gold` at a concrete input. -/
theorem c2_skip_empty_gold_witness :
    score_dataset (([[5], [1]], [0], [[0], []]) :: ([] : List (List (List ℕ) × List ℕ × List (List ℕ)))) [1] 2
      = score_dataset (([[1]], [0], [([0] ++ [])]) :: []) [1] 2 :=
  (c2_skip_empty_gold [0] [5] [0] [1] [] [] [] [] [1] 2 (by decide)).2.2

/-! ### Claim C8 — recall division by zero and its unreachability -/

/-- C8: `get_recall` hits its division by zero exactly when gold is
empty, and every `(filtered_preds, filtered_gold)` call emitted by the
per-turn scorer has non-empty filtered gold (the empty case is skipped
beforehand), so the recall division-by-zero branch is unreachable from
`compute_metrics_per_turn`. -/
theorem c8_recall_guard (gold preds : List α) (k : Nat) (gold2 : List α)
    (l : List (List α × List α)) (seen : List α) (c : List α × List α) :
    (get_recall gold preds k = none ↔ gold = [])
    ∧ (c ∈ perTurnCalls gold2 l seen → c.2 ≠ []) := by
  constructor
  · rw [get_recall, ratDiv_eq_none_iff]
    constructor
    · intro h
      exact List.length_eq_zero.mp (by exact_mod_cast h)
    · intro h
      simp [h]
  · exact fun hc => perTurnCalls_snd_ne_nil gold2 l seen c hc

/-- Witness for `c8_recall_guard` at a concrete input. -/
theorem c8_recall_guard_witness : (([2], [1]) : List ℕ × List ℕ).2 ≠ [] :=
  (c8_recall_guard [1] [1] 1 [1] [([2], [])] [] ([2], [1])).2 (by decide)

/-! ### Validation machinery for compute_metrics -/

theorem has_duplicates_iff (l : List α) : _has_duplicates l = true ↔ ¬ l.Nodup := by
  rw [_has_duplicates, decide_eq_true_iff]
  constructor
  · intro h hnd
    rw [hnd.dedup] at h
    omega
  · intro h
    rcases Nat.lt_or_ge l.dedup.length l.length with h2 | h2
    · exact h2
    · exfalso
      apply h
      have hsub := List.dedup_sublist l
      have hlen : l.dedup.length = l.length :=
        Nat.le_antisymm hsub.length_le h2
      rw [← hsub.eq_of_length hlen]
      exact List.nodup_dedup l

theorem metricFn_none_iff (m : String) :
    metricFn (α := α) m = none ↔ m ∉ STANDARD_METRICS := by
  rw [metricFn, STANDARD_METRICS]
  split_ifs with h1 h2 h3 h4 h5
  · simp [h1]
  · simp [h2]
  · simp [h3]
  · simp [h4]
  · simp [h5]
  · simp [h1, h2, h3, h4, h5]

omit [DecidableEq α] in
theorem foldl_max_init_le : ∀ (l : List Nat) (a : Nat), a ≤ l.foldl max a := by
  intro l
  induction l with
  | nil => intro a; simp
  | cons x xs ih =>
    intro a
    calc a ≤ max a x := le_max_left a x
    _ ≤ (x :: xs).foldl max a := by rw [List.foldl_cons]; exact ih (max a x)

omit [DecidableEq α] in
theorem mem_le_foldl_max : ∀ (l : List Nat) (k : Nat), k ∈ l → ∀ a, k ≤ l.foldl max a := by
  intro l
  induction l with
  | nil => intro k hk; simp at hk
  | cons x xs ih =>
    intro k hk a
    rcases List.mem_cons.mp hk with h | h
    · rw [h, List.foldl_cons]
      calc x ≤ max a x := le_max_right a x
      _ ≤ xs.foldl max (max a x) := foldl_max_init_le xs (max a x)
    · rw [List.foldl_cons]
      exact ih k h (max a x)

omit [DecidableEq α] in
theorem listMax_le_of_mem (l : List Nat) (k : Nat) (h : k ∈ l) : k ≤ listMax l := by
  cases l with
  | nil => simp at h
  | cons k0 rest =>
    rw [listMax]
    rcases List.mem_cons.mp h with h2 | h2
    · rw [h2]; exact foldl_max_init_le rest k0
    · exact mem_le_foldl_max rest k h2 k0

theorem keysAfter_mem : ∀ (ps : List (String × Nat)) (ks0 : List String) (key : String),
    key ∈ keysAfter ks0 ps ↔ key ∈ ks0 ∨ ∃ p ∈ ps, key = keyOf p := by
  intro ps
  induction ps with
  | nil =>
    intro ks0 key
    simp [keysAfter]
  | cons p rest ih =>
    intro ks0 key
    simp only [keysAfter]
    by_cases hm : keyOf p ∈ ks0
    · rw [if_pos hm, ih]
      constructor
      · rintro (h | ⟨q, hq, he⟩)
        · exact Or.inl h
        · exact Or.inr ⟨q, List.mem_cons_of_mem _ hq, he⟩
      · rintro (h | ⟨q, hq, he⟩)
        · exact Or.inl h
        · rcases List.mem_cons.mp hq with h2 | h2
          · left; rw [he, h2]; exact hm
          · exact Or.inr ⟨q, h2, he⟩
    · rw [if_neg hm, ih]
      constructor
      · rintro (h | ⟨q, hq, he⟩)
        · rcases List.mem_append.mp h with h2 | h2
          · exact Or.inl h2
          · right
            refine ⟨p, List.mem_cons_self _ _, ?_⟩
            simpa using h2
        · exact Or.inr ⟨q, List.mem_cons_of_mem _ hq, he⟩
      · rintro (h | ⟨q, hq, he⟩)
        · exact Or.inl (List.mem_append.mpr (Or.inl h))
        · rcases List.mem_cons.mp hq with h2 | h2
          · left
            apply List.mem_append.mpr
            right
            simp [he, h2]
          · exact Or.inr ⟨q, h2, he⟩

theorem keysAfter_nodup : ∀ (ps : List (String × Nat)) (ks0 : List String),
    ks0.Nodup → (keysAfter ks0 ps).Nodup := by
  intro ps
  induction ps with
  | nil =>
    intro ks0 h
    simpa [keysAfter] using h
  | cons p rest ih =>
    intro ks0 h
    simp only [keysAfter]
    by_cases hm : keyOf p ∈ ks0
    · rw [if_pos hm]
      exact ih ks0 h
    · rw [if_neg hm]
      exact ih _ (by simp [List.nodup_append, h, hm])

theorem metricValsLoop_ok_keys (gold preds : List α) :
    ∀ (pairs : List (String × Nat)) (acc : List (String × ℚ)) (r : List (String × ℚ)),
      metricValsLoop gold preds pairs acc = .ok r →
      dictKeys r = keysAfter (dictKeys acc) pairs := by
  intro pairs
  induction pairs with
  | nil =>
    intro acc r h
    simp only [metricValsLoop, Except.ok.injEq] at h
    rw [← h, keysAfter]
  | cons p rest ih =>
    intro acc r h
    obtain ⟨m, k⟩ := p
    cases hf : metricFn (α := α) m with
    | none => simp [metricValsLoop, hf] at h
    | some f =>
      cases hv : f gold preds k with
      | none => simp [metricValsLoop, hf, hv] at h
      | some v =>
        simp only [metricValsLoop, hf, hv] at h
        rw [show keysAfter (dictKeys acc) ((m, k) :: rest)
            = keysAfter (if keyOf (m, k) ∈ dictKeys acc then dictKeys acc
                else dictKeys acc ++ [keyOf (m, k)]) rest from rfl,
          ih _ r h, dictKeys_dictSet]

theorem metricValsLoop_ok_of_forall (gold preds : List α) :
    ∀ (pairs : List (String × Nat)),
      (∀ p ∈ pairs, ∃ f, metricFn (α := α) p.1 = some f ∧ (f gold preds p.2).isSome = true) →
      ∀ acc, ∃ r, metricValsLoop gold preds pairs acc = .ok r := by
  intro pairs
  induction pairs with
  | nil =>
    intro _ acc
    exact ⟨acc, rfl⟩
  | cons p rest ih =>
    intro h acc
    obtain ⟨m, k⟩ := p
    obtain ⟨f, hf, hs⟩ := h (m, k) (List.mem_cons_self _ _)
    obtain ⟨v, hv⟩ := Option.isSome_iff_exists.mp hs
    obtain ⟨r, hr⟩ := ih (fun q hq => h q (List.mem_cons_of_mem _ hq)) (dictSet acc (keyOf (m, k)) v)
    refine ⟨r, ?_⟩
    simp only [metricValsLoop, hf, hv]
    exact hr

theorem metricValsLoop_error_divByZero (gold preds : List α) :
    ∀ (pairs : List (String × Nat)),
      (∀ p ∈ pairs, (metricFn (α := α) p.1).isSome = true) →
      ∀ acc e, metricValsLoop gold preds pairs acc = .error e → e = .divByZero := by
  intro pairs
  induction pairs with
  | nil =>
    intro _ acc e h
    simp [metricValsLoop] at h
  | cons p rest ih =>
    intro hall acc e h
    obtain ⟨m, k⟩ := p
    cases hf : metricFn (α := α) m with
    | none =>
      have h2 := hall (m, k) (List.mem_cons_self _ _)
      rw [hf] at h2
      simp at h2
    | some f =>
      cases hv : f gold preds k with
      | none =>
        simp only [metricValsLoop, hf, hv, Except.error.injEq] at h
        exact h.symm
      | some v =>
        simp only [metricValsLoop, hf, hv] at h
        exact ih (fun q hq => hall q (List.mem_cons_of_mem _ hq)) _ e h

theorem metric_app_isSome (m : String) (f : List α → List α → Nat → Option ℚ)
    (hf : metricFn (α := α) m = some f) (gold preds : List α) (k : Nat)
    (hg : gold ≠ []) (hk1 : 1 ≤ k) (hk2 : k ≤ preds.length) :
    (f gold preds k).isSome = true := by
  have hgl : 0 < gold.length := List.length_pos.mpr hg
  rw [metricFn] at hf
  split_ifs at hf
  · injection hf with h2
    rw [← h2]
    simp
  · injection hf with h2
    rw [← h2]
    show (get_average_precision gold preds k).isSome = true
    rw [get_average_precision]
    apply ratDiv_isSome
    rw [Nat.cast_ne_zero]
    simp only [List.length_take]
    omega
  · injection hf with h2
    rw [← h2]
    show (get_recall gold preds k).isSome = true
    rw [get_recall]
    apply ratDiv_isSome
    rw [Nat.cast_ne_zero]
    omega
  · injection hf with h2
    rw [← h2]
    show (get_precision gold preds k).isSome = true
    rw [get_precision]
    apply ratDiv_isSome
    rw [Nat.cast_ne_zero]
    simp only [List.length_take]
    omega
  · injection hf with h2
    rw [← h2]
    simp

/-! ### Claim C3 — compute_metrics validation contract -/

/-- C3 (amended): restricted to non-empty gold, non-empty `k_values`
and cutoffs at least 1 — outside that regime the code raises errors
the claim does not list (`max([])` on empty `k_values`,
ZeroDivisionError on empty gold or `k = 0`) — `compute_metrics` raises
an input-validation error iff `preds` has duplicates, or `gold` has
duplicates, or a requested metric name is unregistered, or the largest
value in `k_values` exceeds `len(preds)`; when `preds` has duplicates
it returns the duplicate-preds error immediately, with no metric value
computed; and when no condition holds it returns a result holding a
value for every pair in `metrics × k_values`. -/
theorem c3_validation (preds gold : List α) (ks : List Nat) (ms : List String)
    (hg : gold ≠ []) (hks : ks ≠ []) (hk1 : ∀ k ∈ ks, 1 ≤ k) :
    ((∃ e, compute_metrics preds gold ks ms = .error e ∧ isValidationError e = true)
      ↔ (¬ preds.Nodup ∨ ¬ gold.Nodup ∨ (∃ m ∈ ms, m ∉ STANDARD_METRICS)
          ∨ preds.length < listMax ks))
    ∧ (¬ preds.Nodup → compute_metrics preds gold ks ms = .error .dupPreds)
    ∧ ((preds.Nodup ∧ gold.Nodup ∧ (∀ m ∈ ms, m ∈ STANDARD_METRICS)
          ∧ listMax ks ≤ preds.length) →
        ∃ r, compute_metrics preds gold ks ms = .ok r
          ∧ ∀ m ∈ ms, ∀ k ∈ ks, ∃ v, dictGet r (m ++ "@" ++ toString k) = some v) := by
  by_cases hA : _has_duplicates preds = true
  · have hres : compute_metrics preds gold ks ms = .error .dupPreds := by
      rw [compute_metrics, if_pos hA]
    have hnd : ¬ preds.Nodup := (has_duplicates_iff preds).mp hA
    exact ⟨⟨fun _ => Or.inl hnd, fun _ => ⟨.dupPreds, hres, rfl⟩⟩,
      fun _ => hres, fun hc => absurd hc.1 hnd⟩
  · have hndP : preds.Nodup := by
      by_contra hnd
      exact hA ((has_duplicates_iff preds).mpr hnd)
    by_cases hB : _has_duplicates gold = true
    · have hres : compute_metrics preds gold ks ms = .error .dupGold := by
        rw [compute_metrics, if_neg hA, if_pos hB]
      have hnd : ¬ gold.Nodup := (has_duplicates_iff gold).mp hB
      exact ⟨⟨fun _ => Or.inr (Or.inl hnd), fun _ => ⟨.dupGold, hres, rfl⟩⟩,
        fun hc => absurd hndP hc, fun hc => absurd hc.2.1 hnd⟩
    · have hndG : gold.Nodup := by
        by_contra hnd
        exact hB ((has_duplicates_iff gold).mpr hnd)
      by_cases hC : ms.any (fun m => (metricFn (α := α) m).isNone) = true
      · have hres : compute_metrics preds gold ks ms = .error .unknownMetric := by
          rw [compute_metrics, if_neg hA, if_neg hB, if_pos hC]
        obtain ⟨m, hm, hnone⟩ := List.any_eq_true.mp hC
        have hnm : m ∉ STANDARD_METRICS :=
          (metricFn_none_iff (α := α) m).mp (Option.isNone_iff_eq_none.mp hnone)
        refine ⟨⟨fun _ => Or.inr (Or.inr (Or.inl ⟨m, hm, hnm⟩)),
          fun _ => ⟨.unknownMetric, hres, rfl⟩⟩,
          fun hc => absurd hndP hc, fun hc => absurd (hc.2.2.1 m hm) hnm⟩
      · have hreg : ∀ m ∈ ms, (metricFn (α := α) m).isSome = true := by
          intro m hm
          cases hfm : metricFn (α := α) m with
          | none =>
            exfalso
            exact hC (List.any_eq_true.mpr ⟨m, hm, by simp [hfm]⟩)
          | some f => simp
        by_cases hD : preds.length < listMax ks
        · have hres : compute_metrics preds gold ks ms = .error .kTooLarge := by
            rw [compute_metrics, if_neg hA, if_neg hB, if_neg hC, if_neg hks, if_pos hD]
          refine ⟨⟨fun _ => Or.inr (Or.inr (Or.inr hD)),
            fun _ => ⟨.kTooLarge, hres, rfl⟩⟩,
            fun hc => absurd hndP hc, fun hc => absurd hD (by omega)⟩
        · have hall : ∀ p ∈ (ms.flatMap (fun m => ks.map (fun k => (m, k)))),
              ∃ f, metricFn (α := α) p.1 = some f ∧ (f gold preds p.2).isSome = true := by
            intro p hp
            rw [List.mem_flatMap] at hp
            obtain ⟨m, hm, hp2⟩ := hp
            rw [List.mem_map] at hp2
            obtain ⟨k, hk, rfl⟩ := hp2
            obtain ⟨f, hf⟩ := Option.isSome_iff_exists.mp (hreg m hm)
            refine ⟨f, hf, metric_app_isSome m f hf gold preds k hg (hk1 k hk) ?_⟩
            have := listMax_le_of_mem ks k hk
            omega
          obtain ⟨r, hr⟩ := metricValsLoop_ok_of_forall gold preds _ hall []
          have hres : compute_metrics preds gold ks ms = .ok r := by
            rw [compute_metrics, if_neg hA, if_neg hB, if_neg hC, if_neg hks, if_neg hD]
            exact hr
          refine ⟨⟨?_, ?_⟩, fun hc => absurd hndP hc, fun _ => ⟨r, hres, ?_⟩⟩
          · rintro ⟨e, he, _⟩
            rw [hres] at he
            simp at he
          · rintro (h | h | ⟨m, hm, hnm⟩ | h)
            · exact absurd hndP h
            · exact absurd hndG h
            · exact absurd ((metricFn_none_iff (α := α) m).mpr hnm)
                (by have := hreg m hm; cases hfm : metricFn (α := α) m <;> simp [hfm] at this ⊢)
            · exact absurd h hD
          · intro m hm k hk
            have hkeys := metricValsLoop_ok_keys gold preds _ [] r hr
            have hmem : (m ++ "@" ++ toString k) ∈ dictKeys r := by
              rw [hkeys, dictKeys_nil, keysAfter_mem]
              right
              refine ⟨(m, k), ?_, rfl⟩
              rw [List.mem_flatMap]
              exact ⟨m, hm, List.mem_map.mpr ⟨k, hk, rfl⟩⟩
            exact dictGet_isSome_of_mem_keys r _ hmem

/-- C3 counterexample: with empty gold (no duplicates anywhere,
`recall` registered, `max(k_values) = 1 = len(preds)`) none of the four
validation conditions hold, yet the code raises — a ZeroDivisionError
from `recall` — instead of returning a value for every requested
pair. -/
theorem c3_counterexample :
    List.Nodup [0]
    ∧ List.Nodup ([] : List ℕ)
    ∧ (∀ m ∈ ["recall"], m ∈ STANDARD_METRICS)
    ∧ listMax [1] ≤ List.length [0]
    ∧ compute_metrics [0] ([] : List ℕ) [1] ["recall"] = .error .divByZero := by
  refine ⟨by decide, by decide, by decide, by decide, ?_⟩
  rfl

/-- Witness for `c3_validation` at concrete inputs: duplicate
predictions `[X, X, Y]` raise the duplicate error, and a clean call
returns a value for the requested pair. -/
theorem c3_validation_witness :
    compute_metrics [0, 0, 1] [5] [1] ["hit"] = .error .dupPreds
    ∧ ∃ r, compute_metrics [0, 1] [5] [1] ["hit"] = .ok r
        ∧ ∀ m ∈ ["hit"], ∀ k ∈ [1], ∃ v, dictGet r (m ++ "@" ++ toString k) = some v := by
  constructor
  · exact (c3_validation [0, 0, 1] [5] [1] ["hit"] (by decide) (by decide)
      (by decide)).2.1 (by decide)
  · exact (c3_validation [0, 1] [5] [1] ["hit"] (by decide) (by decide)
      (by decide)).2.2 ⟨by decide, by decide, by decide, by decide⟩

/-! ### Shape of the per-turn result dict -/

theorem foldl_dictAppend_fresh (tm : List (String × ℚ)) :
    ∀ (acc : List (String × List ℚ)),
      (∀ p ∈ tm, p.1 ∉ dictKeys acc) → (dictKeys tm).Nodup →
      tm.foldl (fun r kv => dictAppend r kv.1 kv.2) acc
        = acc ++ tm.map (fun p => (p.1, [p.2])) := by
  induction tm with
  | nil =>
    intro acc _ _
    simp
  | cons q tm2 ih =>
    intro acc hfresh hnodup
    obtain ⟨k, v⟩ := q
    rw [List.foldl_cons]
    have hstep : dictAppend acc k v = acc ++ [(k, [v])] :=
      dictAppend_of_not_mem acc k v (hfresh (k, v) (List.mem_cons_self _ _))
    rw [hstep, ih (acc ++ [(k, [v])]) ?_ ?_]
    · simp
    · intro p hp
      rw [dictKeys_append, List.mem_append]
      push_neg
      constructor
      · exact hfresh p (List.mem_cons_of_mem _ hp)
      · rw [dictKeys_cons] at hnodup
        have hk : k ∉ dictKeys tm2 := by
          simpa using (List.nodup_cons.mp hnodup).1
        intro hmem
        have he : p.1 = k := by simpa [dictKeys] using hmem
        exact hk (he ▸ List.mem_map_of_mem Prod.fst hp)
    · rw [dictKeys_cons] at hnodup
      exact (List.nodup_cons.mp hnodup).2

theorem foldl_dictAppend_pass (tm : List (String × ℚ)) :
    ∀ (k0 : String) (vs : List ℚ) (acc : List (String × List ℚ)),
      (∀ p ∈ tm, p.1 ≠ k0) →
      tm.foldl (fun r kv => dictAppend r kv.1 kv.2) ((k0, vs) :: acc)
        = (k0, vs) :: tm.foldl (fun r kv => dictAppend r kv.1 kv.2) acc := by
  induction tm with
  | nil =>
    intro k0 vs acc _
    simp
  | cons q tm2 ih =>
    intro k0 vs acc hne
    obtain ⟨k, v⟩ := q
    rw [List.foldl_cons, List.foldl_cons]
    have hk : ¬ k0 = k := fun hh => hne (k, v) (List.mem_cons_self _ _) hh.symm
    have hstep : dictAppend ((k0, vs) :: acc) k v = (k0, vs) :: dictAppend acc k v := by
      simp [dictAppend, hk]
    rw [hstep, ih k0 vs _ (fun p hp => hne p (List.mem_cons_of_mem _ hp))]

theorem foldl_dictAppend_step (tm : List (String × ℚ)) :
    ∀ (acc : List (String × List ℚ)) (n : Nat),
      dictKeys acc = dictKeys tm → (dictKeys tm).Nodup →
      (∀ p ∈ acc, p.2.length = n) →
      dictKeys (tm.foldl (fun r kv => dictAppend r kv.1 kv.2) acc) = dictKeys tm
      ∧ (∀ p ∈ tm.foldl (fun r kv => dictAppend r kv.1 kv.2) acc, p.2.length = n + 1) := by
  induction tm with
  | nil =>
    intro acc n hkeys _ _
    have hnil : acc = [] := by
      rw [dictKeys_nil] at hkeys
      exact List.map_eq_nil_iff.mp hkeys
    subst hnil
    exact ⟨rfl, by simp⟩
  | cons q tm2 ih =>
    intro acc n hkeys hnodup hlen
    obtain ⟨k, v⟩ := q
    cases acc with
    | nil =>
      rw [dictKeys_nil, dictKeys_cons] at hkeys
      exact absurd hkeys.symm (List.cons_ne_nil _ _)
    | cons a acc2 =>
      obtain ⟨k1, vs⟩ := a
      rw [dictKeys_cons, dictKeys_cons] at hkeys
      have hk1 : k1 = k := by simpa using List.head_eq_of_cons_eq hkeys
      have hkeys2 : dictKeys acc2 = dictKeys tm2 := List.tail_eq_of_cons_eq hkeys
      subst hk1
      rw [List.foldl_cons]
      have hstep : dictAppend ((k1, vs) :: acc2) k1 v = (k1, vs ++ [v]) :: acc2 := by
        simp [dictAppend]
      rw [hstep]
      rw [dictKeys_cons] at hnodup
      have hnotin : k1 ∉ dictKeys tm2 := by
        simpa using (List.nodup_cons.mp hnodup).1
      have hpass := foldl_dictAppend_pass tm2 k1 (vs ++ [v]) acc2
        (fun p hp hh => hnotin (hh ▸ List.mem_map_of_mem Prod.fst hp))
      rw [hpass]
      obtain ⟨ihk, ihl⟩ := ih acc2 n hkeys2 (List.nodup_cons.mp hnodup).2
        (fun p hp => hlen p (List.mem_cons_of_mem _ hp))
      constructor
      · rw [dictKeys_cons, dictKeys_cons, ihk]
      · intro p hp
        rcases List.mem_cons.mp hp with h | h
        · rw [h]
          have hvs : vs.length = n := by
            simpa using hlen (k1, vs) (List.mem_cons_self _ _)
          simp [hvs]
        · exact ihl p h

theorem canonKeys_nodup (ks : List Nat) : (canonKeys ks).Nodup :=
  keysAfter_nodup _ [] List.nodup_nil

theorem canonKeys_mem (ks : List Nat) (key : String) :
    key ∈ canonKeys ks ↔ ∃ m ∈ STANDARD_METRICS, ∃ k ∈ ks, key = m ++ "@" ++ toString k := by
  rw [canonKeys, keysAfter_mem]
  constructor
  · rintro (h | ⟨p, hp, he⟩)
    · simp at h
    · rw [List.mem_flatMap] at hp
      obtain ⟨m, hm, hp2⟩ := hp
      rw [List.mem_map] at hp2
      obtain ⟨k, hk, rfl⟩ := hp2
      exact ⟨m, hm, k, hk, he⟩
  · rintro ⟨m, hm, k, hk, he⟩
    right
    refine ⟨(m, k), ?_, he⟩
    rw [List.mem_flatMap]
    exact ⟨m, hm, List.mem_map.mpr ⟨k, hk, rfl⟩⟩

theorem canonKeys_ne_nil (ks : List Nat) (h : ks ≠ []) : canonKeys ks ≠ [] := by
  cases ks with
  | nil => exact absurd rfl h
  | cons k0 rest =>
    apply List.ne_nil_of_mem (a := "hit" ++ "@" ++ toString k0)
    rw [canonKeys_mem]
    exact ⟨"hit", by rw [STANDARD_METRICS]; simp, k0, List.mem_cons_self _ _, rfl⟩

theorem compute_metrics_ok_keys (preds gold : List α) (ks : List Nat) (ms : List String)
    (r : List (String × ℚ)) (h : compute_metrics preds gold ks ms = .ok r) :
    dictKeys r = keysAfter [] (ms.flatMap (fun m => ks.map (fun k => (m, k)))) := by
  rw [compute_metrics] at h
  split_ifs at h
  have h2 := metricValsLoop_ok_keys gold preds _ [] r h
  rwa [dictKeys_nil] at h2

theorem compute_metrics_ok_ks_ne (preds gold : List α) (ks : List Nat) (ms : List String)
    (r : List (String × ℚ)) (h : compute_metrics preds gold ks ms = .ok r) :
    ks ≠ [] := by
  rw [compute_metrics] at h
  split_ifs at h with h1 h2 h3 h4 h5
  exact h4

theorem perTurnFold_invariant (ks : List Nat) :
    ∀ (calls : List (List α × List α)) (ret ret2 : List (String × List ℚ)) (n : Nat),
      dictKeys ret = canonKeys ks → (∀ p ∈ ret, p.2.length = n) →
      perTurnFold ks calls ret = .ok ret2 →
      dictKeys ret2 = canonKeys ks ∧ ∀ p ∈ ret2, p.2.length = n + calls.length := by
  intro calls
  induction calls with
  | nil =>
    intro ret ret2 n hkeys hlen h
    simp only [perTurnFold, Except.ok.injEq] at h
    subst h
    exact ⟨hkeys, by simpa using hlen⟩
  | cons c0 cs ih =>
    intro ret ret2 n hkeys hlen h
    obtain ⟨fp, fg⟩ := c0
    cases hcm : compute_metrics fp fg ks STANDARD_METRICS with
    | error e => simp [perTurnFold, hcm] at h
    | ok tm =>
      simp only [perTurnFold, hcm] at h
      have htm : dictKeys tm = canonKeys ks := compute_metrics_ok_keys fp fg ks _ tm hcm
      have hnd : (dictKeys tm).Nodup := htm ▸ canonKeys_nodup ks
      obtain ⟨hk2, hl2⟩ := foldl_dictAppend_step tm ret n (by rw [hkeys, htm]) hnd hlen
      obtain ⟨hk3, hl3⟩ := ih _ ret2 (n + 1) (by rw [hk2, htm]) hl2 h
      refine ⟨hk3, fun p hp => ?_⟩
      have := hl3 p hp
      simp only [List.length_cons]
      omega

/-! ### Claim C10 — shape of compute_metrics_per_turn's result -/

/-- C10: when `compute_metrics_per_turn` returns normally, every list
in the returned mapping has length equal to the number of non-skipped
turns, the mapping is empty exactly when every turn was skipped, and
otherwise its key set is exactly the cross product
`{"<metric>@<k>"}` of the five registered metrics with `k_values`. -/
theorem c10_result_shape (preds : List (List α)) (gold : List α)
    (seeds : List (List α)) (ks : List Nat) (ret : List (String × List ℚ))
    (h : compute_metrics_per_turn preds gold seeds ks = .ok ret) :
    (∀ p ∈ ret, p.2.length = (perTurnCalls gold (preds.zip seeds) []).length)
    ∧ (ret = [] ↔ perTurnCalls gold (preds.zip seeds) [] = [])
    ∧ (ret ≠ [] → ∀ key, (key ∈ dictKeys ret ↔
        ∃ m ∈ STANDARD_METRICS, ∃ k ∈ ks, key = m ++ "@" ++ toString k)) := by
  rw [compute_metrics_per_turn] at h
  cases hcalls : perTurnCalls gold (preds.zip seeds) [] with
  | nil =>
    rw [hcalls] at h
    simp only [perTurnFold, Except.ok.injEq] at h
    subst h
    exact ⟨by simp, by simp, fun hne => absurd rfl hne⟩
  | cons c0 cs =>
    rw [hcalls] at h
    obtain ⟨fp, fg⟩ := c0
    cases hcm : compute_metrics fp fg ks STANDARD_METRICS with
    | error e => simp [perTurnFold, hcm] at h
    | ok tm =>
      simp only [perTurnFold, hcm] at h
      have htm : dictKeys tm = canonKeys ks := compute_metrics_ok_keys fp fg ks _ tm hcm
      have hnd : (dictKeys tm).Nodup := htm ▸ canonKeys_nodup ks
      have hfresh := foldl_dictAppend_fresh tm [] (by simp [dictKeys_nil]) hnd
      have hkeys1 : dictKeys (tm.foldl (fun r kv => dictAppend r kv.1 kv.2) []) = canonKeys ks := by
        rw [hfresh, ← htm]
        simp [dictKeys, List.map_map]
      have hlen1 : ∀ p ∈ tm.foldl (fun r kv => dictAppend r kv.1 kv.2) [], p.2.length = 1 := by
        rw [hfresh]
        intro p hp
        simp only [List.nil_append, List.mem_map] at hp
        obtain ⟨q, _, rfl⟩ := hp
        rfl
      obtain ⟨hkeysF, hlenF⟩ := perTurnFold_invariant ks cs _ ret 1 hkeys1 hlen1 h
      have hretne : ret ≠ [] := by
        intro hnil
        have : dictKeys ret = [] := by rw [hnil, dictKeys_nil]
        rw [hkeysF] at this
        exact canonKeys_ne_nil ks (compute_metrics_ok_ks_ne fp fg ks _ tm hcm) this
      refine ⟨?_, ?_, fun _ key => ?_⟩
      · intro p hp
        have := hlenF p hp
        simp only [List.length_cons]
        omega
      · constructor
        · intro hnil; exact absurd hnil hretne
        · intro hnil; exact absurd hnil (List.cons_ne_nil _ _)
      · rw [hkeysF]
        exact canonKeys_mem ks key

theorem compute_metrics_ok_exists (preds gold : List α) (ks : List Nat) (ms : List String)
    (hg : gold ≠ []) (hks : ks ≠ []) (hk1 : ∀ k ∈ ks, 1 ≤ k)
    (hA : ¬ _has_duplicates preds = true) (hB : ¬ _has_duplicates gold = true)
    (hreg : ∀ m ∈ ms, (metricFn (α := α) m).isSome = true)
    (hD : listMax ks ≤ preds.length) :
    ∃ r, compute_metrics preds gold ks ms = .ok r := by
  have hC : ¬ (ms.any (fun m => (metricFn (α := α) m).isNone) = true) := by
    rw [List.any_eq_true]
    rintro ⟨m, hm, hnone⟩
    have h2 := hreg m hm
    rw [Option.isNone_iff_eq_none.mp hnone] at h2
    simp at h2
  have hall : ∀ p ∈ (ms.flatMap (fun m => ks.map (fun k => (m, k)))),
      ∃ f, metricFn (α := α) p.1 = some f ∧ (f gold preds p.2).isSome = true := by
    intro p hp
    rw [List.mem_flatMap] at hp
    obtain ⟨m, hm, hp2⟩ := hp
    rw [List.mem_map] at hp2
    obtain ⟨k, hk, rfl⟩ := hp2
    obtain ⟨f, hf⟩ := Option.isSome_iff_exists.mp (hreg m hm)
    refine ⟨f, hf, metric_app_isSome m f hf gold preds k hg (hk1 k hk) ?_⟩
    have := listMax_le_of_mem ks k hk
    omega
  obtain ⟨r, hr⟩ := metricValsLoop_ok_of_forall gold preds _ hall []
  refine ⟨r, ?_⟩
  rw [compute_metrics, if_neg hA, if_neg hB, if_neg hC, if_neg hks, if_neg (by omega)]
  exact hr

theorem perTurnFold_ok_exists (ks : List Nat) :
    ∀ (calls : List (List α × List α)) (ret : List (String × List ℚ)),
      (∀ c ∈ calls, ∃ tm, compute_metrics c.1 c.2 ks STANDARD_METRICS = .ok tm) →
      ∃ ret2, perTurnFold ks calls ret = .ok ret2 := by
  intro calls
  induction calls with
  | nil =>
    intro ret _
    exact ⟨ret, rfl⟩
  | cons c0 cs ih =>
    intro ret h
    obtain ⟨fp, fg⟩ := c0
    obtain ⟨tm, htm⟩ := h (fp, fg) (List.mem_cons_self _ _)
    obtain ⟨ret2, hret2⟩ := ih _ (fun c hc => h c (List.mem_cons_of_mem _ hc))
    refine ⟨ret2, ?_⟩
    simp only [perTurnFold, htm]
    exact hret2

/-- Witness for `c10_result_shape`, applying it to a concretely
constructed successful run (gold `[0,1]`, two turns, `k_values = [1]`,
turn-1 seed batch `[0]`). -/
theorem c10_result_shape_witness :
    ∃ ret, compute_metrics_per_turn [[0], [1]] [0, 1] [[], [0]] [1] = .ok ret
      ∧ ∀ p ∈ ret, p.2.length
          = (perTurnCalls [0, 1] ([[0], [1]].zip [[], [0]]) []).length := by
  have hex : ∀ c ∈ [(([0] : List ℕ), ([0, 1] : List ℕ)), ([1], [1])],
      ∃ tm, compute_metrics c.1 c.2 [1] STANDARD_METRICS = .ok tm := by
    intro c hc
    rw [List.mem_cons, List.mem_singleton] at hc
    rcases hc with rfl | rfl
    · exact compute_metrics_ok_exists [0] [0, 1] [1] STANDARD_METRICS (by decide)
        (by decide) (by decide) (by decide) (by decide) (by decide) (by decide)
    · exact compute_metrics_ok_exists [1] [1] [1] STANDARD_METRICS (by decide)
        (by decide) (by decide) (by decide) (by decide) (by decide) (by decide)
  have hcalls : perTurnCalls [0, 1] ([[0], [1]].zip ([[], [0]] : List (List ℕ))) []
      = [([0], [0, 1]), ([1], [1])] := by decide
  obtain ⟨ret, hret⟩ : ∃ ret,
      compute_metrics_per_turn [[0], [1]] [0, 1] [[], [0]] [1] = .ok ret := by
    rw [compute_metrics_per_turn, hcalls]
    exact perTurnFold_ok_exists [1] _ [] hex
  exact ⟨ret, hret, (c10_result_shape [[0], [1]] [0, 1] [[], [0]] [1] ret hret).1⟩

/-! ### Claim C4 — three-way aggregation of one dialog's values -/

/-- C4: one `_PerTurnMetricSummary.update` call with a dialog's
per-turn value list updates positional bucket `i` exactly when the
dialog has a (scoreable) value at position `i` and `i` is within the
`max_turns` buckets, with that value; every value — including those at
positions `max_turns` and beyond — is folded into the micro average,
and the macro average receives the mean of all the values. -/
theorem c4_positional_buckets (s : _PerTurnMetricSummary) (values : List ℚ)
    (s2 : _PerTurnMetricSummary) (h : s.update values = some s2) :
    s2.per_turn_average.length = s.per_turn_average.length
    ∧ (∀ i, (h1 : i < s.per_turn_average.length) → i < s2.per_turn_average.length
        ∧ ∀ (h2 : i < s2.per_turn_average.length),
          s2.per_turn_average.get ⟨i, h2⟩ =
            if hv : i < values.length
            then (s.per_turn_average.get ⟨i, h1⟩).update (values.get ⟨i, hv⟩)
            else s.per_turn_average.get ⟨i, h1⟩)
    ∧ s2.micro_average = values.foldl _AveragedValue.update s.micro_average
    ∧ s2.macro_average = s.macro_average.update (values.sum / (values.length : ℚ)) := by
  rw [_PerTurnMetricSummary.update] at h
  by_cases hlen : values.length = 0
  · rw [if_pos hlen] at h
    simp at h
  · rw [if_neg hlen] at h
    obtain rfl := Option.some.inj h
    have hl : (List.zipWith _AveragedValue.update s.per_turn_average values
        ++ s.per_turn_average.drop values.length).length = s.per_turn_average.length := by
      rw [List.length_append, List.length_zipWith, List.length_drop]
      omega
    refine ⟨hl, fun i h1 => ⟨?_, fun h2 => ?_⟩, rfl, rfl⟩
    · show i < (List.zipWith _AveragedValue.update s.per_turn_average values
        ++ s.per_turn_average.drop values.length).length
      omega
    simp only [List.get_eq_getElem]
    by_cases hv : i < values.length
    · rw [dif_pos hv]
      have hzl : i < (List.zipWith _AveragedValue.update s.per_turn_average values).length := by
        rw [List.length_zipWith]
        omega
      show (List.zipWith _AveragedValue.update s.per_turn_average values
        ++ s.per_turn_average.drop values.length)[i] = _
      rw [List.getElem_append_left hzl, List.getElem_zipWith]
    · rw [dif_neg hv]
      have hz : (List.zipWith _AveragedValue.update s.per_turn_average values).length
          = values.length := by
        rw [List.length_zipWith]
        omega
      have hge : (List.zipWith _AveragedValue.update s.per_turn_average values).length ≤ i := by
        omega
      show (List.zipWith _AveragedValue.update s.per_turn_average values
        ++ s.per_turn_average.drop values.length)[i] = _
      rw [List.getElem_append_right hge, List.getElem_drop]
      have hidx : values.length
          + (i - (List.zipWith _AveragedValue.update s.per_turn_average values).length) = i := by
        omega
      simp only [hidx]

/-- Witness for `c4_positional_buckets`: a fresh two-bucket summary
updated with three per-turn values (the third beyond `max_turns`). -/
theorem c4_positional_buckets_witness :
    ∃ s2, (freshSummary 2).update [1, 2, 3] = some s2
      ∧ s2.micro_average
          = ([1, 2, 3] : List ℚ).foldl _AveragedValue.update (freshSummary 2).micro_average
      ∧ s2.per_turn_average.length = 2 := by
  cases hs : (freshSummary 2).update [1, 2, 3] with
  | none =>
    exfalso
    rw [_PerTurnMetricSummary.update] at hs
    simp at hs
  | some s2 =>
    obtain ⟨hlen, _, hmicro, _⟩ := c4_positional_buckets (freshSummary 2) [1, 2, 3] s2 hs
    exact ⟨s2, rfl, hmicro, by rw [hlen]; rfl⟩

/-! ### Aggregation existence and invariants -/

theorem summaryUpdate_isSome (s : _PerTurnMetricSummary) (values : List ℚ)
    (h : values ≠ []) : (s.update values).isSome = true := by
  rw [_PerTurnMetricSummary.update, if_neg (by simpa [List.length_eq_zero] using h)]
  rfl

theorem summaryUpdate_per_turn_length (s : _PerTurnMetricSummary) (values : List ℚ)
    (s2 : _PerTurnMetricSummary) (h : s.update values = some s2) :
    s2.per_turn_average.length = s.per_turn_average.length := by
  rw [_PerTurnMetricSummary.update] at h
  by_cases hlen : values.length = 0
  · rw [if_pos hlen] at h
    simp at h
  · rw [if_neg hlen] at h
    obtain rfl := Option.some.inj h
    rw [List.length_append, List.length_zipWith, List.length_drop]
    omega

theorem aggUpdateMetrics_ok_exists (m : Nat) :
    ∀ (dm : List (String × List ℚ)) (agg : List (String × _PerTurnMetricSummary)),
      (∀ p ∈ dm, p.2 ≠ []) →
      ∃ agg2, aggUpdateMetrics m dm agg = .ok agg2 := by
  intro dm
  induction dm with
  | nil =>
    intro agg _
    exact ⟨agg, rfl⟩
  | cons p rest ih =>
    intro agg h
    obtain ⟨name, vals⟩ := p
    have hs := summaryUpdate_isSome ((dictGet agg name).getD (freshSummary m)) vals
      (h (name, vals) (List.mem_cons_self _ _))
    obtain ⟨s2, hs2⟩ := Option.isSome_iff_exists.mp hs
    obtain ⟨agg2, hagg2⟩ := ih (dictSet agg name s2)
      (fun q hq => h q (List.mem_cons_of_mem _ hq))
    refine ⟨agg2, ?_⟩
    simp only [aggUpdateMetrics, hs2]
    exact hagg2

theorem perTurnFold_lengths (ks : List Nat) (calls : List (List α × List α))
    (ret : List (String × List ℚ)) (h : perTurnFold ks calls [] = .ok ret) :
    ∀ p ∈ ret, p.2.length = calls.length := by
  cases calls with
  | nil =>
    simp only [perTurnFold, Except.ok.injEq] at h
    subst h
    simp
  | cons c0 cs =>
    obtain ⟨fp, fg⟩ := c0
    cases hcm : compute_metrics fp fg ks STANDARD_METRICS with
    | error e => simp [perTurnFold, hcm] at h
    | ok tm =>
      simp only [perTurnFold, hcm] at h
      have htm : dictKeys tm = canonKeys ks := compute_metrics_ok_keys fp fg ks _ tm hcm
      have hnd : (dictKeys tm).Nodup := htm ▸ canonKeys_nodup ks
      have hfresh := foldl_dictAppend_fresh tm [] (by simp [dictKeys_nil]) hnd
      have hkeys1 : dictKeys (tm.foldl (fun r kv => dictAppend r kv.1 kv.2) [])
          = canonKeys ks := by
        rw [hfresh, ← htm]
        simp [dictKeys, List.map_map]
      have hlen1 : ∀ p ∈ tm.foldl (fun r kv => dictAppend r kv.1 kv.2) [],
          p.2.length = 1 := by
        rw [hfresh]
        intro p hp
        simp only [List.nil_append, List.mem_map] at hp
        obtain ⟨q, _, rfl⟩ := hp
        rfl
      obtain ⟨_, hlenF⟩ := perTurnFold_invariant ks cs _ ret 1 hkeys1 hlen1 h
      intro p hp
      have := hlenF p hp
      simp only [List.length_cons]
      omega

theorem dictGet_getD_per_turn_length (agg : List (String × _PerTurnMetricSummary))
    (name : String) (m : Nat)
    (hlen : ∀ p ∈ agg, p.2.per_turn_average.length = m) :
    ((dictGet agg name).getD (freshSummary m)).per_turn_average.length = m := by
  cases hg : dictGet agg name with
  | none => simp [freshSummary]
  | some s =>
    have := hlen (name, s) (dictGet_mem agg name s hg)
    simpa using this

theorem aggUpdateMetrics_inv (m : Nat) :
    ∀ (dm : List (String × List ℚ)) (agg agg2 : List (String × _PerTurnMetricSummary)),
      (∀ key ∈ dictKeys dm, '@' ∈ key.data) →
      aggInv m agg → aggUpdateMetrics m dm agg = .ok agg2 → aggInv m agg2 := by
  intro dm
  induction dm with
  | nil =>
    intro agg agg2 _ hinv h
    simp only [aggUpdateMetrics, Except.ok.injEq] at h
    subst h
    exact hinv
  | cons p rest ih =>
    intro agg agg2 hkeys hinv h
    obtain ⟨name, vals⟩ := p
    obtain ⟨hnd, hat, hlen⟩ := hinv
    cases hs : ((dictGet agg name).getD (freshSummary m)).update vals with
    | none => simp [aggUpdateMetrics, hs] at h
    | some s2 =>
      simp only [aggUpdateMetrics, hs] at h
      have hs2len : s2.per_turn_average.length = m := by
        rw [summaryUpdate_per_turn_length _ vals s2 hs]
        exact dictGet_getD_per_turn_length agg name m hlen
      refine ih (dictSet agg name s2) agg2
        (fun key hk => hkeys key (by rw [dictKeys_cons]; exact List.mem_cons_of_mem _ hk))
        ⟨nodup_dictKeys_dictSet agg name s2 hnd, ?_, ?_⟩ h
      · intro key hk
        rw [dictKeys_dictSet] at hk
        by_cases hm : name ∈ dictKeys agg
        · rw [if_pos hm] at hk
          exact hat key hk
        · rw [if_neg hm, List.mem_append] at hk
          rcases hk with hk | hk
          · exact hat key hk
          · rw [List.mem_singleton] at hk
            subst hk
            exact hkeys key (by rw [dictKeys_cons]; exact List.mem_cons_self _ _)
      · intro q hq
        rcases mem_dictSet agg name s2 q hq with h2 | h2
        · exact hlen q h2
        · rw [h2]
          exact hs2len

theorem at_mem_key_data (m2 : String) (k : Nat) (key : String)
    (h : key = m2 ++ "@" ++ toString k) : '@' ∈ key.data := by
  subst h
  rw [String.data_append, String.data_append]
  simp [show ("@" : String).data = ['@'] from rfl]

theorem compute_metrics_per_turn_keys_at (preds : List (List α)) (gold : List α)
    (seeds : List (List α)) (ks : List Nat) (ret : List (String × List ℚ))
    (h : compute_metrics_per_turn preds gold seeds ks = .ok ret) :
    ∀ key ∈ dictKeys ret, '@' ∈ key.data := by
  rw [compute_metrics_per_turn] at h
  intro key hk
  cases hcalls : perTurnCalls gold (preds.zip seeds) [] with
  | nil =>
    rw [hcalls] at h
    simp only [perTurnFold, Except.ok.injEq] at h
    subst h
    simp [dictKeys_nil] at hk
  | cons c0 cs =>
    rw [hcalls] at h
    obtain ⟨fp, fg⟩ := c0
    cases hcm : compute_metrics fp fg ks STANDARD_METRICS with
    | error e => simp [perTurnFold, hcm] at h
    | ok tm =>
      simp only [perTurnFold, hcm] at h
      have htm : dictKeys tm = canonKeys ks := compute_metrics_ok_keys fp fg ks _ tm hcm
      have hnd : (dictKeys tm).Nodup := htm ▸ canonKeys_nodup ks
      have hfresh := foldl_dictAppend_fresh tm [] (by simp [dictKeys_nil]) hnd
      have hkeys1 : dictKeys (tm.foldl (fun r kv => dictAppend r kv.1 kv.2) [])
          = canonKeys ks := by
        rw [hfresh, ← htm]
        simp [dictKeys, List.map_map]
      have hlen1 : ∀ p ∈ tm.foldl (fun r kv => dictAppend r kv.1 kv.2) [],
          p.2.length = 1 := by
        rw [hfresh]
        intro p hp
        simp only [List.nil_append, List.mem_map] at hp
        obtain ⟨q, _, rfl⟩ := hp
        rfl
      obtain ⟨hkeysF, _⟩ := perTurnFold_invariant ks cs _ ret 1 hkeys1 hlen1 h
      rw [hkeysF, canonKeys_mem] at hk
      obtain ⟨m2, _, k, _, he⟩ := hk
      exact at_mem_key_data m2 k key he

theorem aggOf_inv (ks : List Nat) (m : Nat) :
    ∀ (ds : List (List (List α) × List α × List (List α)))
      (agg agg2 : List (String × _PerTurnMetricSummary)),
      aggInv m agg → aggOf ks m ds agg = .ok agg2 → aggInv m agg2 := by
  intro ds
  induction ds with
  | nil =>
    intro agg agg2 hinv h
    simp only [aggOf, Except.ok.injEq] at h
    subst h
    exact hinv
  | cons d rest ih =>
    intro agg agg2 hinv h
    cases hdm : compute_metrics_per_turn d.1 d.2.1 d.2.2 ks with
    | error e => simp [aggOf, hdm] at h
    | ok dm =>
      simp only [aggOf, hdm] at h
      cases hup : aggUpdateMetrics m dm agg with
      | error e => rw [hup] at h; simp at h
      | ok agg3 =>
        rw [hup] at h
        exact ih agg3 agg2
          (aggUpdateMetrics_inv m dm agg agg3
            (compute_metrics_per_turn_keys_at d.1 d.2.1 d.2.2 ks dm hdm) hinv hup) h

theorem aggOf_ok_exists (ks : List Nat) (m : Nat) :
    ∀ (ds : List (List (List α) × List α × List (List α)))
      (agg : List (String × _PerTurnMetricSummary)),
      (∀ d ∈ ds, ∃ dm, compute_metrics_per_turn d.1 d.2.1 d.2.2 ks = .ok dm
        ∧ ∀ p ∈ dm, p.2 ≠ []) →
      ∃ agg2, aggOf ks m ds agg = .ok agg2 := by
  intro ds
  induction ds with
  | nil =>
    intro agg _
    exact ⟨agg, rfl⟩
  | cons d rest ih =>
    intro agg h
    obtain ⟨dm, hdm, hne⟩ := h d (List.mem_cons_self _ _)
    obtain ⟨agg3, hagg3⟩ := aggUpdateMetrics_ok_exists m dm agg hne
    obtain ⟨agg2, hagg2⟩ := ih agg3 (fun d2 hd2 => h d2 (List.mem_cons_of_mem _ hd2))
    refine ⟨agg2, ?_⟩
    simp only [aggOf, hdm, hagg3]
    exact hagg2

theorem reportOf_fold :
    ∀ (rest : List (String × _PerTurnMetricSummary)) (rep : List (String × List ℚ)),
      (dictKeys rest).Nodup → (∀ key ∈ dictKeys rest, key ≠ "counts") →
      (∀ p ∈ rest,
        dictGet (rest.foldl (fun r q =>
          dictSet (dictSet r q.1 (valuesRow q.2)) "counts" (countsRow q.2)) rep) p.1
          = some (valuesRow p.2))
      ∧ (∀ n, n ∉ dictKeys rest → n ≠ "counts" →
          dictGet (rest.foldl (fun r q =>
            dictSet (dictSet r q.1 (valuesRow q.2)) "counts" (countsRow q.2)) rep) n
            = dictGet rep n)
      ∧ (∀ q, rest.getLast? = some q →
          dictGet (rest.foldl (fun r q =>
            dictSet (dictSet r q.1 (valuesRow q.2)) "counts" (countsRow q.2)) rep) "counts"
            = some (countsRow q.2)) := by
  intro rest
  induction rest with
  | nil =>
    intro rep _ _
    refine ⟨by simp, fun n _ _ => rfl, fun q hq => by simp at hq⟩
  | cons p rest2 ih =>
    intro rep hnd hnc
    obtain ⟨name, s⟩ := p
    rw [dictKeys_cons] at hnd hnc
    have hname_nc : name ≠ "counts" := hnc name (List.mem_cons_self _ _)
    have hname_nin : name ∉ dictKeys rest2 := by
      simpa using (List.nodup_cons.mp hnd).1
    have hnd2 : (dictKeys rest2).Nodup := (List.nodup_cons.mp hnd).2
    have hnc2 : ∀ key ∈ dictKeys rest2, key ≠ "counts" :=
      fun key hk => hnc key (List.mem_cons_of_mem _ hk)
    obtain ⟨ih1, ih2, ih3⟩ := ih
      (dictSet (dictSet rep name (valuesRow s)) "counts" (countsRow s)) hnd2 hnc2
    have hrep1_name :
        dictGet (dictSet (dictSet rep name (valuesRow s)) "counts" (countsRow s)) name
          = some (valuesRow s) := by
      rw [dictGet_dictSet_ne _ _ _ _ hname_nc, dictGet_dictSet_self]
    refine ⟨?_, ?_, ?_⟩
    · intro q hq
      rcases List.mem_cons.mp hq with h2 | h2
      · subst h2
        rw [List.foldl_cons]
        rw [ih2 name hname_nin hname_nc]
        exact hrep1_name
      · rw [List.foldl_cons]
        exact ih1 q h2
    · intro n hn hn_nc
      rw [dictKeys_cons, List.mem_cons] at hn
      push_neg at hn
      rw [List.foldl_cons, ih2 n hn.2 hn_nc,
        dictGet_dictSet_ne _ _ _ _ hn_nc, dictGet_dictSet_ne _ _ _ _ hn.1]
    · intro q hq
      cases rest2 with
      | nil =>
        simp only [List.getLast?_singleton, Option.some.injEq] at hq
        subst hq
        rw [List.foldl_cons]
        show dictGet (dictSet (dictSet rep name (valuesRow s)) "counts" (countsRow s))
          "counts" = _
        rw [dictGet_dictSet_self]
      | cons r2 rest3 =>
        rw [List.getLast?_cons_cons] at hq
        rw [List.foldl_cons]
        exact ih3 q hq

/-! ### Claim C7 — report rows and the shared counts entry -/

/-- C7: when aggregation succeeds, `score_dataset` reports, for each
metric key, the row `[macro, micro, bucket_0, ..., bucket_{max_turns-1}]`
(of length `max_turns + 2`), while the single shared `"counts"` entry —
rewritten on every iteration over the metrics — ends up holding exactly
the count row of the last metric iterated. -/
theorem c7_report_rows (dialogs : List (List (List α) × List α × List (List α)))
    (ks : List Nat) (m : Nat) (agg : List (String × _PerTurnMetricSummary))
    (h : aggOf ks m dialogs [] = .ok agg) :
    score_dataset dialogs ks m = .ok (reportOf agg)
    ∧ (∀ p ∈ agg, dictGet (reportOf agg) p.1 = some (valuesRow p.2)
        ∧ (valuesRow p.2).length = m + 2 ∧ (countsRow p.2).length = m + 2)
    ∧ (∀ q, agg.getLast? = some q →
        dictGet (reportOf agg) "counts" = some (countsRow q.2)) := by
  have hinv0 : aggInv m ([] : List (String × _PerTurnMetricSummary)) := by
    refine ⟨List.nodup_nil, ?_, ?_⟩ <;> simp [dictKeys_nil]
  obtain ⟨hnd, hat, hlen⟩ := aggOf_inv ks m dialogs [] agg hinv0 h
  have hnc : ∀ key ∈ dictKeys agg, key ≠ "counts" := by
    intro key hk he
    have h2 := hat key hk
    rw [he] at h2
    revert h2
    decide
  obtain ⟨h1, _, h3⟩ := reportOf_fold agg [] hnd hnc
  refine ⟨?_, fun p hp => ⟨?_, ?_, ?_⟩, fun q hq => ?_⟩
  · rw [score_dataset, h]
  · rw [reportOf]
    exact h1 p hp
  · rw [valuesRow]
    simp [hlen p hp]
  · rw [countsRow]
    simp [hlen p hp]
  · rw [reportOf]
    exact h3 q hq

/-- Witness for `c7_report_rows`, applying it to a concretely
constructed successful run (one dialog, one turn, `k_values = [1]`,
`max_turns = 2`). -/
theorem c7_report_rows_witness :
    ∃ agg, aggOf [1] 2 [([[0]], ([0] : List ℕ), [[]])] [] = .ok agg
      ∧ score_dataset [([[0]], [0], [[]])] [1] 2 = .ok (reportOf agg) := by
  have hcalls : perTurnCalls [0] ([[0]].zip ([[]] : List (List ℕ))) []
      = [([0], [0])] := by decide
  obtain ⟨dm, hdm⟩ : ∃ dm,
      compute_metrics_per_turn [[0]] ([0] : List ℕ) [[]] [1] = .ok dm := by
    rw [compute_metrics_per_turn, hcalls]
    apply perTurnFold_ok_exists
    intro c hc
    rw [List.mem_singleton] at hc
    subst hc
    exact compute_metrics_ok_exists [0] [0] [1] STANDARD_METRICS (by decide)
      (by decide) (by decide) (by decide) (by decide) (by decide) (by decide)
  have hne : ∀ p ∈ dm, p.2 ≠ [] := by
    intro p hp
    have h2 : p.2.length = 1 := by
      have h3 := perTurnFold_lengths [1]
        (perTurnCalls [0] ([[0]].zip ([[]] : List (List ℕ))) []) dm
        (by rw [← compute_metrics_per_turn]; exact hdm) p hp
      rw [hcalls] at h3
      simpa using h3
    intro hnil
    rw [hnil] at h2
    simp at h2
  obtain ⟨agg, hagg⟩ : ∃ agg, aggOf [1] 2 [([[0]], ([0] : List ℕ), [[]])] [] = .ok agg := by
    apply aggOf_ok_exists
    intro d hd
    rw [List.mem_singleton] at hd
    subst hd
    exact ⟨dm, hdm, hne⟩
  exact ⟨agg, hagg, (c7_report_rows [([[0]], [0], [[]])] [1] 2 agg hagg).1⟩

end Cpcd
